import Mathlib

/-!
Verification of the GBDT implementation in gbdt_numba.py over a shallow
embedding into Lean.  Machine floats are modelled by exact rationals; numpy
arrays by lists of rationals; the fallible parts of the code (attribute
errors, comparisons with None) by Option.
-/

namespace GBDTSpec

/-- `leaf_score(g,h,reg_lambda)` from the source: `-np.sum(g)/(np.sum(h)+reg_lambda)`. -/
def leaf_score (g h : List ℚ) (reg_lambda : ℚ) : ℚ :=
  -(g.sum) / (h.sum + reg_lambda)

/-- `leaf_loss(g,h,reg_lambda)` from the source: `-0.5*np.square(np.sum(g))/(np.sum(h)+reg_lambda)`. -/
def leaf_loss (g h : List ℚ) (reg_lambda : ℚ) : ℚ :=
  -(1/2) * (g.sum) ^ 2 / (h.sum + reg_lambda)

/-- Sum of the entries of `xs` at the indices `i` with `feature[i] < threshold`
(the `left_g`/`left_h` accumulators of `calculate_gain`). -/
def sumIf (threshold : ℚ) : List ℚ → List ℚ → ℚ
  | f :: fs, x :: xs => (if f < threshold then x else 0) + sumIf threshold fs xs
  | _, _ => 0

/-- Sum of the entries of `xs` at the indices `i` with `¬ feature[i] < threshold`
(the `right_g`/`right_h` accumulators of `calculate_gain`). -/
def sumElse (threshold : ℚ) : List ℚ → List ℚ → ℚ
  | f :: fs, x :: xs => (if f < threshold then 0 else x) + sumElse threshold fs xs
  | _, _ => 0

/-- `calculate_gain(original_loss, feature, g, h, threshold, reg_lambda)` from the
source: accumulate the per-group gradient/hessian sums by comparing each feature
value with the threshold, compute each group's leaf loss, and return
`original_loss - left_loss - right_loss`. -/
def calculate_gain (original_loss : ℚ) (feature g h : List ℚ)
    (threshold reg_lambda : ℚ) : ℚ :=
  let left_g := sumIf threshold feature g
  let left_h := sumIf threshold feature h
  let right_g := sumElse threshold feature g
  let right_h := sumElse threshold feature h
  let left_loss := -(1/2) * left_g ^ 2 / (left_h + reg_lambda)
  let right_loss := -(1/2) * right_g ^ 2 / (right_h + reg_lambda)
  original_loss - left_loss - right_loss

lemma sumIf_add_sumElse (threshold : ℚ) :
    ∀ (feature xs : List ℚ), xs.length = feature.length →
      sumIf threshold feature xs + sumElse threshold feature xs = xs.sum
  | [], [], _ => by simp [sumIf, sumElse]
  | f :: fs, x :: xs, h => by
    have hx : xs.length = fs.length := by simpa using h
    have ih := sumIf_add_sumElse threshold fs xs hx
    by_cases hf : f < threshold <;> simp [sumIf, sumElse, hf] <;> linarith

/-- Engel form / Cauchy-Schwarz: for positive denominators,
`(x+y)^2/(A+B) ≤ x^2/A + y^2/B`. -/
lemma sq_div_add_le (x y A B : ℚ) (hA : 0 < A) (hB : 0 < B) :
    (x + y) ^ 2 / (A + B) ≤ x ^ 2 / A + y ^ 2 / B := by
  rw [div_add_div _ _ (ne_of_gt hA) (ne_of_gt hB),
    div_le_div_iff₀ (by positivity) (by positivity)]
  nlinarith [sq_nonneg (x * B - y * A), sq_nonneg x, sq_nonneg y,
    mul_pos hA hB, mul_pos (mul_pos hA hB) (add_pos hA hB)]

lemma gain_arith (Gl Gr L R : ℚ) (hL : 0 < L) (hR : 0 < R) :
    0 ≤ -(1/2) * (Gl + Gr) ^ 2 / (L + R + 0) - -(1/2) * Gl ^ 2 / (L + 0) -
        -(1/2) * Gr ^ 2 / (R + 0) := by
  have key := sq_div_add_le Gl Gr L R hL hR
  have e1 : -(1/2) * (Gl + Gr) ^ 2 / (L + R + 0) =
      -((1/2) * ((Gl + Gr) ^ 2 / (L + R))) := by rw [add_zero]; ring
  have e2 : -(1/2) * Gl ^ 2 / (L + 0) = -((1/2) * (Gl ^ 2 / L)) := by rw [add_zero]; ring
  have e3 : -(1/2) * Gr ^ 2 / (R + 0) = -((1/2) * (Gr ^ 2 / R)) := by rw [add_zero]; ring
  rw [e1, e2, e3]
  linarith

/-- C1 (counterexample): at gradient `[1,1]`, hessian `[0,0]`, `reg_lambda = 1`,
feature column `[0,1]` and threshold `1/2`, every hypothesis of the claim holds
(non-empty equal-length vectors, `reg_lambda ≥ 0`, the threshold lies strictly
between the two observed values `0` and `1`, and each group's hessian sum plus
`reg_lambda` equals `1 > 0`), yet `calculate_gain` is `-1 < 0`: the claimed
non-negativity of the gain fails for positive `reg_lambda`. -/
theorem calculate_gain_neg_counterexample :
    ([(0:ℚ), 1] ≠ []) ∧
    ([(1:ℚ), 1].length = [(0:ℚ), 1].length) ∧
    ([(0:ℚ), 0].length = [(0:ℚ), 1].length) ∧
    ((0:ℚ) ≤ 1) ∧
    (∃ a ∈ [(0:ℚ), 1], a < 1/2) ∧ (∃ b ∈ [(0:ℚ), 1], (1/2:ℚ) < b) ∧
    (0 < sumIf (1/2) [(0:ℚ), 1] [0, 0] + 1) ∧
    (0 < sumElse (1/2) [(0:ℚ), 1] [0, 0] + 1) ∧
    calculate_gain (leaf_loss [1, 1] [0, 0] 1) [0, 1] [1, 1] [0, 0] (1/2) 1 < 0 := by
  refine ⟨by simp, by simp, by simp, by norm_num, ⟨0, by simp, by norm_num⟩,
    ⟨1, by simp, by norm_num⟩, by norm_num [sumIf, sumElse],
    by norm_num [sumIf, sumElse], ?_⟩
  norm_num [calculate_gain, leaf_loss, sumIf, sumElse]

/-- C1 (amended): with `reg_lambda = 0`, for gradient/hessian vectors of the same
length as the feature column, a threshold strictly between two observed values of
the column, and both groups' hessian sums positive, the combined loss of the two
groups never exceeds the unsplit `leaf_loss`:
`calculate_gain(leaf_loss(g,h,0), column, g, h, threshold, 0) ≥ 0`. -/
theorem calculate_gain_nonneg (g h feature : List ℚ) (threshold : ℚ)
    (hg : g.length = feature.length) (hh : h.length = feature.length)
    (hne : feature ≠ [])
    (hlo : ∃ a ∈ feature, a < threshold) (hhi : ∃ b ∈ feature, threshold < b)
    (hL : 0 < sumIf threshold feature h) (hR : 0 < sumElse threshold feature h) :
    0 ≤ calculate_gain (leaf_loss g h 0) feature g h threshold 0 := by
  have hsg := sumIf_add_sumElse threshold feature g hg
  have hsh := sumIf_add_sumElse threshold feature h hh
  simp only [calculate_gain, leaf_loss]
  rw [← hsg, ← hsh]
  exact gain_arith (sumIf threshold feature g) (sumElse threshold feature g)
    (sumIf threshold feature h) (sumElse threshold feature h) hL hR

/-- Witness for C1 (amended) at `g = h = [1,1]`, column `[0,1]`, threshold `1/2`,
`reg_lambda = 0`. -/
theorem calculate_gain_nonneg_witness :
    0 ≤ calculate_gain (leaf_loss [1, 1] [1, 1] 0) [0, 1] [1, 1] [1, 1] (1/2) 0 :=
  calculate_gain_nonneg [1, 1] [1, 1] [0, 1] (1/2) (by simp) (by simp)
    (by simp) ⟨0, by simp, by norm_num⟩ ⟨1, by simp, by norm_num⟩
    (by norm_num [sumIf, sumElse]) (by norm_num [sumIf, sumElse])

/-- C10: on empty gradient and hessian vectors with `reg_lambda > 0`, the empty
sums are zero and the denominator `reg_lambda` is nonzero, so `leaf_score` and
`leaf_loss` both evaluate to `0` (total, not undefined). -/
theorem leaf_score_leaf_loss_empty (reg_lambda : ℚ) (hpos : 0 < reg_lambda) :
    leaf_score [] [] reg_lambda = 0 ∧ leaf_loss [] [] reg_lambda = 0 := by
  constructor <;> simp [leaf_score, leaf_loss]

/-- Witness for C10 at `reg_lambda = 1`. -/
theorem leaf_score_leaf_loss_empty_witness :
    leaf_score [] [] 1 = 0 ∧ leaf_loss [] [] 1 = 0 :=
  leaf_score_leaf_loss_empty 1 (by norm_num)

/-- Insert a value into a sorted duplicate-free list, keeping it sorted and
duplicate-free: one step of the embedding of `np.unique`. -/
def insertUniq (x : ℚ) : List ℚ → List ℚ
  | [] => [x]
  | y :: ys => if x < y then x :: y :: ys else if x = y then y :: ys else y :: insertUniq x ys

/-- `np.unique(train)`: the sorted list of the distinct values of `train`. -/
def npUnique (train : List ℚ) : List ℚ := train.foldr insertUniq []

lemma mem_insertUniq (a x : ℚ) : ∀ (l : List ℚ), a ∈ insertUniq x l ↔ a = x ∨ a ∈ l
  | [] => by simp [insertUniq]
  | y :: ys => by
    simp only [insertUniq]
    split_ifs with h1 h2
    · simp only [List.mem_cons]
    · subst h2
      simp only [List.mem_cons]
      tauto
    · simp only [List.mem_cons, mem_insertUniq a x ys]
      tauto

lemma sorted_insertUniq (x : ℚ) :
    ∀ (l : List ℚ), l.Pairwise (· < ·) → (insertUniq x l).Pairwise (· < ·)
  | [], _ => by simp [insertUniq]
  | y :: ys, h => by
    rcases List.pairwise_cons.mp h with ⟨hy, hys⟩
    simp only [insertUniq]
    split_ifs with h1 h2
    · refine List.pairwise_cons.mpr ⟨?_, h⟩
      intro b hb
      rcases List.mem_cons.mp hb with rfl | hb
      · exact h1
      · exact lt_trans h1 (hy b hb)
    · exact h
    · have hyx : y < x := lt_of_le_of_ne (not_lt.mp h1) (Ne.symm h2)
      refine List.pairwise_cons.mpr ⟨?_, sorted_insertUniq x ys hys⟩
      intro b hb
      rcases (mem_insertUniq b x ys).mp hb with rfl | hb
      · exact hyx
      · exact hy b hb

lemma sorted_npUnique : ∀ (train : List ℚ), (npUnique train).Pairwise (· < ·)
  | [] => by simp [npUnique]
  | x :: xs => sorted_insertUniq x (npUnique xs) (sorted_npUnique xs)

lemma mem_npUnique (a : ℚ) : ∀ (train : List ℚ), a ∈ npUnique train ↔ a ∈ train
  | [] => by simp [npUnique]
  | x :: xs => by
    have h : npUnique (x :: xs) = insertUniq x (npUnique xs) := rfl
    rw [h, mem_insertUniq]
    simp [mem_npUnique a xs]

lemma zip_tail_mem : ∀ (l : List ℚ), l.Pairwise (· < ·) →
    ∀ p ∈ l.zip l.tail, p.1 ∈ l ∧ p.2 ∈ l ∧ p.1 < p.2
  | [], _, p, hp => by simp at hp
  | [a], _, p, hp => by simp at hp
  | a :: b :: rest, h, p, hp => by
    have htail : (b :: rest).Pairwise (· < ·) := (List.pairwise_cons.mp h).2
    have hab : a < b := (List.pairwise_cons.mp h).1 b (by simp)
    have hzip : (a :: b :: rest).zip (a :: b :: rest).tail =
        (a, b) :: (b :: rest).zip rest := rfl
    rw [hzip] at hp
    rcases List.mem_cons.mp hp with rfl | hp'
    · exact ⟨by simp, by simp, hab⟩
    · have hrest : (b :: rest).tail = rest := rfl
      obtain ⟨h1, h2, h3⟩ := zip_tail_mem (b :: rest) htail p (by rw [hrest]; exact hp')
      exact ⟨List.mem_cons_of_mem a h1, List.mem_cons_of_mem a h2, h3⟩

lemma head_le_of_sorted (b x : ℚ) (rest : List ℚ)
    (h : (b :: rest).Pairwise (· < ·)) (hx : x ∈ b :: rest) : b ≤ x := by
  rcases List.mem_cons.mp hx with rfl | hx'
  · exact le_refl x
  · exact le_of_lt ((List.pairwise_cons.mp h).1 x hx')

/-- Midpoints of consecutive entries of a strictly sorted list are strictly
increasing. -/
lemma mid_pairwise : ∀ (l : List ℚ), l.Pairwise (· < ·) →
    (l.zip l.tail).Pairwise (fun p q => (p.1 + p.2) / 2 < (q.1 + q.2) / 2)
  | [], _ => by simp
  | [a], _ => by simp
  | a :: b :: rest, h => by
    have htail : (b :: rest).Pairwise (· < ·) := (List.pairwise_cons.mp h).2
    have hab : a < b := (List.pairwise_cons.mp h).1 b (by simp)
    have hzip : (a :: b :: rest).zip (a :: b :: rest).tail =
        (a, b) :: (b :: rest).zip rest := rfl
    rw [hzip]
    refine List.pairwise_cons.mpr ⟨?_, ?_⟩
    · intro q hq
      obtain ⟨hq1, hq2, hq3⟩ := zip_tail_mem (b :: rest) htail q hq
      have hb1 : b ≤ q.1 := head_le_of_sorted b q.1 rest htail hq1
      have : a + b < q.1 + q.2 := by linarith
      linarith
    · exact mid_pairwise (b :: rest) htail

/-- The scanning loop of `find_threshold`: walk the consecutive pairs of distinct
sorted values, evaluate `calculate_gain` at each midpoint, and keep the
threshold whenever `this_gain > best_gain`. -/
def ft_scan (loss : ℚ) (train g h : List ℚ) (reg_lambda : ℚ) :
    List (ℚ × ℚ) → Option ℚ × ℚ → Option ℚ × ℚ
  | [], acc => acc
  | p :: ps, acc =>
    let this_threshold := (p.1 + p.2) / 2
    let this_gain := calculate_gain loss train g h this_threshold reg_lambda
    if acc.2 < this_gain then
      ft_scan loss train g h reg_lambda ps (some this_threshold, this_gain)
    else
      ft_scan loss train g h reg_lambda ps acc

/-- `find_threshold(g,h,train,reg_lambda)` from the source: compute the unsplit
`leaf_loss`, then scan the midpoints of consecutive distinct values of the
column, starting from `threshold = None`, `best_gain = 0`. -/
def find_threshold (g h train : List ℚ) (reg_lambda : ℚ) : Option ℚ × ℚ :=
  let loss := leaf_loss g h reg_lambda
  let unq := npUnique train
  ft_scan loss train g h reg_lambda (unq.zip unq.tail) (none, 0)

/-- The gain `find_threshold` computes for one candidate threshold. -/
def gainAt (g h train : List ℚ) (reg_lambda t : ℚ) : ℚ :=
  calculate_gain (leaf_loss g h reg_lambda) train g h t reg_lambda

/-- Full characterization of the `find_threshold` scanning loop: the final best
gain dominates the initial one and every candidate's gain; and either the
accumulator is returned unchanged, or the result is the gain-maximizing
midpoint, strictly improving on the initial gain, and is the smallest midpoint
among the ties. -/
lemma ft_scan_spec (L : ℚ) (train g h : List ℚ) (lam : ℚ) (ps : List (ℚ × ℚ)) :
    ∀ (acc : Option ℚ × ℚ),
      ps.Pairwise (fun p q => (p.1 + p.2) / 2 < (q.1 + q.2) / 2) →
      acc.2 ≤ (ft_scan L train g h lam ps acc).2 ∧
      (∀ p ∈ ps, calculate_gain L train g h ((p.1 + p.2) / 2) lam ≤
        (ft_scan L train g h lam ps acc).2) ∧
      (ft_scan L train g h lam ps acc = acc ∨
        ∃ p ∈ ps,
          ft_scan L train g h lam ps acc =
            (some ((p.1 + p.2) / 2), calculate_gain L train g h ((p.1 + p.2) / 2) lam) ∧
          acc.2 < (ft_scan L train g h lam ps acc).2 ∧
          ∀ q ∈ ps,
            calculate_gain L train g h ((q.1 + q.2) / 2) lam =
              (ft_scan L train g h lam ps acc).2 →
            (p.1 + p.2) / 2 ≤ (q.1 + q.2) / 2) := by
  induction ps with
  | nil =>
    intro acc _
    exact ⟨le_refl _, by simp, Or.inl rfl⟩
  | cons p ps ih =>
    intro acc hsort
    rcases List.pairwise_cons.mp hsort with ⟨hp_lt, hsort'⟩
    by_cases hgt : acc.2 < calculate_gain L train g h ((p.1 + p.2) / 2) lam
    · have heq : ft_scan L train g h lam (p :: ps) acc =
          ft_scan L train g h lam ps
            (some ((p.1 + p.2) / 2), calculate_gain L train g h ((p.1 + p.2) / 2) lam) := by
        simp only [ft_scan]
        rw [if_pos hgt]
      obtain ⟨ih1, ih2, ih3⟩ := ih
        (some ((p.1 + p.2) / 2), calculate_gain L train g h ((p.1 + p.2) / 2) lam) hsort'
      rw [heq]
      have ih1' : calculate_gain L train g h ((p.1 + p.2) / 2) lam ≤
          (ft_scan L train g h lam ps
            (some ((p.1 + p.2) / 2),
              calculate_gain L train g h ((p.1 + p.2) / 2) lam)).2 := ih1
      refine ⟨le_trans (le_of_lt hgt) ih1', ?_, ?_⟩
      · intro q hq
        rcases List.mem_cons.mp hq with rfl | hq'
        · exact ih1'
        · exact ih2 q hq'
      · rcases ih3 with h3 | ⟨q, hq, hres, hlt, hties⟩
        · refine Or.inr ⟨p, List.mem_cons_self p ps, h3, ?_, ?_⟩
          · rw [h3]
            exact hgt
          · intro q hq hgq
            rcases List.mem_cons.mp hq with rfl | hq'
            · exact le_refl _
            · exact le_of_lt (hp_lt q hq')
        · have hplt : calculate_gain L train g h ((p.1 + p.2) / 2) lam <
              (ft_scan L train g h lam ps
                (some ((p.1 + p.2) / 2),
                  calculate_gain L train g h ((p.1 + p.2) / 2) lam)).2 := hlt
          refine Or.inr ⟨q, List.mem_cons_of_mem p hq, hres, lt_trans hgt hplt, ?_⟩
          intro r hr hgr
          rcases List.mem_cons.mp hr with rfl | hr'
          · exact absurd hgr (ne_of_lt hplt)
          · exact hties r hr' hgr
    · have heq : ft_scan L train g h lam (p :: ps) acc =
          ft_scan L train g h lam ps acc := by
        simp only [ft_scan]
        rw [if_neg hgt]
      obtain ⟨ih1, ih2, ih3⟩ := ih acc hsort'
      rw [heq]
      refine ⟨ih1, ?_, ?_⟩
      · intro q hq
        rcases List.mem_cons.mp hq with rfl | hq'
        · exact le_trans (not_lt.mp hgt) ih1
        · exact ih2 q hq'
      · rcases ih3 with h3 | ⟨q, hq, hres, hlt, hties⟩
        · exact Or.inl h3
        · refine Or.inr ⟨q, List.mem_cons_of_mem p hq, hres, hlt, ?_⟩
          intro r hr hgr
          rcases List.mem_cons.mp hr with rfl | hr'
          · exact absurd hgr (ne_of_lt (lt_of_le_of_lt (not_lt.mp hgt) hlt))
          · exact hties r hr' hgr

lemma find_threshold_eq (g h train : List ℚ) (lam : ℚ) :
    find_threshold g h train lam =
      ft_scan (leaf_loss g h lam) train g h lam
        ((npUnique train).zip (npUnique train).tail) (none, 0) := rfl

lemma find_threshold_gain_nonneg (g h train : List ℚ) (lam : ℚ) :
    0 ≤ (find_threshold g h train lam).2 := by
  have := (ft_scan_spec (leaf_loss g h lam) train g h lam
    ((npUnique train).zip (npUnique train).tail) (none, 0)
    (mid_pairwise (npUnique train) (sorted_npUnique train))).1
  rw [find_threshold_eq]
  exact this

lemma find_threshold_none_iff (g h train : List ℚ) (lam : ℚ) :
    (find_threshold g h train lam).1 = none ↔ (find_threshold g h train lam).2 = 0 := by
  obtain ⟨h1, h2, h3⟩ := ft_scan_spec (leaf_loss g h lam) train g h lam
    ((npUnique train).zip (npUnique train).tail) (none, 0)
    (mid_pairwise (npUnique train) (sorted_npUnique train))
  rw [find_threshold_eq]
  constructor
  · intro hn
    rcases h3 with h3 | ⟨p, hp, hres, hlt, _⟩
    · rw [h3]
    · rw [hres] at hn
      simp at hn
  · intro hz
    rcases h3 with h3 | ⟨p, hp, hres, hlt, _⟩
    · rw [h3]
    · exfalso
      rw [hz] at hlt
      exact absurd hlt (lt_irrefl 0)

/-- Characterization of `find_threshold` (shared helper). -/
lemma find_threshold_char (g h train : List ℚ) (reg_lambda : ℚ) :
    (npUnique train).Pairwise (· < ·) ∧
    (∀ x, x ∈ npUnique train ↔ x ∈ train) ∧
    (∀ p ∈ (npUnique train).zip (npUnique train).tail,
      gainAt g h train reg_lambda ((p.1 + p.2) / 2) ≤
        (find_threshold g h train reg_lambda).2) ∧
    (∀ t, (find_threshold g h train reg_lambda).1 = some t →
      (∃ p ∈ (npUnique train).zip (npUnique train).tail, t = (p.1 + p.2) / 2) ∧
      (find_threshold g h train reg_lambda).2 = gainAt g h train reg_lambda t ∧
      0 < (find_threshold g h train reg_lambda).2 ∧
      (∀ p ∈ (npUnique train).zip (npUnique train).tail,
        gainAt g h train reg_lambda ((p.1 + p.2) / 2) =
          (find_threshold g h train reg_lambda).2 →
        t ≤ (p.1 + p.2) / 2)) := by
  obtain ⟨h1, h2, h3⟩ := ft_scan_spec (leaf_loss g h reg_lambda) train g h reg_lambda
    ((npUnique train).zip (npUnique train).tail) (none, 0)
    (mid_pairwise (npUnique train) (sorted_npUnique train))
  refine ⟨sorted_npUnique train, fun x => mem_npUnique x train, ?_, ?_⟩
  · rw [find_threshold_eq]
    exact h2
  · intro t ht
    rw [find_threshold_eq] at ht
    rcases h3 with h3 | ⟨p, hp, hres, hlt, hties⟩
    · rw [h3] at ht
      simp at ht
    · rw [hres] at ht
      simp only [Prod.fst, Option.some.injEq] at ht
      subst ht
      refine ⟨⟨p, hp, rfl⟩, ?_, ?_, ?_⟩
      · rw [find_threshold_eq, hres]
        rfl
      · rw [find_threshold_eq]
        exact hlt
      · intro q hq hgq
        rw [find_threshold_eq] at hgq
        exact hties q hq hgq

/-- C7: `find_threshold` evaluates as candidates exactly the midpoints of
consecutive values in the sorted duplicate-free list of column values
(`npUnique`): the returned gain dominates every midpoint's gain, and a returned
threshold is one of the midpoints, attains the returned gain, has strictly
positive gain, and is the smallest midpoint among those attaining the maximal
gain (the update condition is strict `>`, so the earliest, i.e. smallest,
threshold is kept on ties). -/
theorem find_threshold_spec (g h train : List ℚ) (reg_lambda : ℚ) :
    (npUnique train).Pairwise (· < ·) ∧
    (∀ x, x ∈ npUnique train ↔ x ∈ train) ∧
    (∀ p ∈ (npUnique train).zip (npUnique train).tail,
      gainAt g h train reg_lambda ((p.1 + p.2) / 2) ≤
        (find_threshold g h train reg_lambda).2) ∧
    (∀ t, (find_threshold g h train reg_lambda).1 = some t →
      (∃ p ∈ (npUnique train).zip (npUnique train).tail, t = (p.1 + p.2) / 2) ∧
      (find_threshold g h train reg_lambda).2 = gainAt g h train reg_lambda t ∧
      0 < (find_threshold g h train reg_lambda).2 ∧
      (∀ p ∈ (npUnique train).zip (npUnique train).tail,
        gainAt g h train reg_lambda ((p.1 + p.2) / 2) =
          (find_threshold g h train reg_lambda).2 →
        t ≤ (p.1 + p.2) / 2)) :=
  find_threshold_char g h train reg_lambda

/-- Witness for C7: at `g = [2,-2]`, `h = [1,1]`, column `[0,2]`,
`reg_lambda = 1`, the returned threshold is the midpoint `1` and the returned
gain is strictly positive. -/
theorem find_threshold_spec_witness :
    0 < (find_threshold [2, -2] [1, 1] [0, 2] 1).2 :=
  (((find_threshold_spec [2, -2] [1, 1] [0, 2] 1).2.2.2 1
    (by norm_num [find_threshold, ft_scan, npUnique, insertUniq, calculate_gain,
      leaf_loss, sumIf, sumElse])).2.2).1

/-- The number of feature columns of the sample matrix (numpy arrays are
rectangular, so this is the length of any row). -/
def numCols (train : List (List ℚ)) : ℕ := (train.headD []).length

/-- `train.T`: column `j` of the rectangular sample matrix is the list of the
`j`-th entry of every row. -/
def transposeT (train : List (List ℚ)) : List (List ℚ) :=
  (List.range (numCols train)).map (fun j => train.map (fun row => row.getD j 0))

/-- The scanning loop of `find_best_split`: for each feature column run
`find_threshold` and keep the feature whenever `this_gain > best_gain`. -/
def fbs_scan (g h : List ℚ) (lam : ℚ) :
    List (List ℚ) → ℕ → ℕ × Option ℚ × ℚ → ℕ × Option ℚ × ℚ
  | [], _, acc => acc
  | c :: cs, i, acc =>
    let p := find_threshold g h c lam
    if acc.2.2 < p.2 then fbs_scan g h lam cs (i + 1) (i, p.1, p.2)
    else fbs_scan g h lam cs (i + 1) acc

/-- `find_best_split(train,g,h,reg_lambda)` from the source: transpose the
sample matrix and scan every feature column with `find_threshold`, starting from
`feature = 0`, `threshold = None`, `best_gain = 0`. -/
def find_best_split (train : List (List ℚ)) (g h : List ℚ) (reg_lambda : ℚ) :
    ℕ × Option ℚ × ℚ :=
  fbs_scan g h reg_lambda (transposeT train) 0 (0, none, 0)

/-- Full characterization of the `find_best_split` scanning loop. -/
lemma fbs_scan_spec (g h : List ℚ) (lam : ℚ) :
    ∀ (cols : List (List ℚ)) (i0 : ℕ) (acc : ℕ × Option ℚ × ℚ),
      acc.2.2 ≤ (fbs_scan g h lam cols i0 acc).2.2 ∧
      (∀ j, j < cols.length →
        (find_threshold g h (cols.getD j []) lam).2 ≤ (fbs_scan g h lam cols i0 acc).2.2) ∧
      (fbs_scan g h lam cols i0 acc = acc ∨
        ∃ k, k < cols.length ∧
          (fbs_scan g h lam cols i0 acc).1 = i0 + k ∧
          (fbs_scan g h lam cols i0 acc).2 = find_threshold g h (cols.getD k []) lam ∧
          acc.2.2 < (fbs_scan g h lam cols i0 acc).2.2 ∧
          ∀ j, j < k →
            (find_threshold g h (cols.getD j []) lam).2 <
              (fbs_scan g h lam cols i0 acc).2.2) := by
  intro cols
  induction cols with
  | nil =>
    intro i0 acc
    exact ⟨le_refl _, fun j hj => absurd hj (by simp), Or.inl rfl⟩
  | cons c cs ih =>
    intro i0 acc
    by_cases hgt : acc.2.2 < (find_threshold g h c lam).2
    · have heq : fbs_scan g h lam (c :: cs) i0 acc =
          fbs_scan g h lam cs (i0 + 1)
            (i0, (find_threshold g h c lam).1, (find_threshold g h c lam).2) := by
        simp only [fbs_scan]
        rw [if_pos hgt]
      obtain ⟨ih1, ih2, ih3⟩ :=
        ih (i0 + 1) (i0, (find_threshold g h c lam).1, (find_threshold g h c lam).2)
      rw [heq]
      have ih1' : (find_threshold g h c lam).2 ≤
          (fbs_scan g h lam cs (i0 + 1)
            (i0, (find_threshold g h c lam).1, (find_threshold g h c lam).2)).2.2 := ih1
      refine ⟨le_trans (le_of_lt hgt) ih1', ?_, ?_⟩
      · intro j hj
        cases j with
        | zero => simpa using ih1'
        | succ j =>
          simp only [List.getD_cons_succ]
          exact ih2 j (by simpa using hj)
      · rcases ih3 with h3 | ⟨k, hk, hres1, hres2, hlt, hprev⟩
        · refine Or.inr ⟨0, by simp, ?_, ?_, ?_, ?_⟩
          · rw [h3]
            simp
          · rw [h3]
            simp
          · rw [h3]
            exact hgt
          · intro j hj
            exact absurd hj (Nat.not_lt_zero j)
        · have hlt' : (find_threshold g h c lam).2 <
              (fbs_scan g h lam cs (i0 + 1)
                (i0, (find_threshold g h c lam).1, (find_threshold g h c lam).2)).2.2 := hlt
          refine Or.inr ⟨k + 1, by simpa using hk, ?_, ?_, lt_trans hgt hlt', ?_⟩
          · rw [hres1]
            omega
          · simpa only [List.getD_cons_succ] using hres2
          · intro j hj
            cases j with
            | zero => simpa using hlt'
            | succ j =>
              simp only [List.getD_cons_succ]
              exact hprev j (by omega)
    · have heq : fbs_scan g h lam (c :: cs) i0 acc = fbs_scan g h lam cs (i0 + 1) acc := by
        simp only [fbs_scan]
        rw [if_neg hgt]
      obtain ⟨ih1, ih2, ih3⟩ := ih (i0 + 1) acc
      rw [heq]
      refine ⟨ih1, ?_, ?_⟩
      · intro j hj
        cases j with
        | zero => simpa using le_trans (not_lt.mp hgt) ih1
        | succ j =>
          simp only [List.getD_cons_succ]
          exact ih2 j (by simpa using hj)
      · rcases ih3 with h3 | ⟨k, hk, hres1, hres2, hlt, hprev⟩
        · exact Or.inl h3
        · refine Or.inr ⟨k + 1, by simpa using hk, ?_, ?_, hlt, ?_⟩
          · rw [hres1]
            omega
          · simpa only [List.getD_cons_succ] using hres2
          · intro j hj
            cases j with
            | zero => simpa using lt_of_le_of_lt (not_lt.mp hgt) hlt
            | succ j =>
              simp only [List.getD_cons_succ]
              exact hprev j (by omega)

lemma find_best_split_eq (train : List (List ℚ)) (g h : List ℚ) (lam : ℚ) :
    find_best_split train g h lam = fbs_scan g h lam (transposeT train) 0 (0, none, 0) := rfl

lemma find_best_split_gain_nonneg (train : List (List ℚ)) (g h : List ℚ) (lam : ℚ) :
    0 ≤ (find_best_split train g h lam).2.2 := by
  have := (fbs_scan_spec g h lam (transposeT train) 0 (0, none, 0)).1
  rw [find_best_split_eq]
  exact this

/-- Characterization of `find_best_split` (shared helper). -/
lemma find_best_split_char (train : List (List ℚ)) (g h : List ℚ) (reg_lambda : ℚ) :
    (∀ j, j < (transposeT train).length →
      (find_threshold g h ((transposeT train).getD j []) reg_lambda).2 ≤
        (find_best_split train g h reg_lambda).2.2) ∧
    ((find_best_split train g h reg_lambda).2.2 ≠ 0 →
      ∃ k, k < (transposeT train).length ∧
        (find_best_split train g h reg_lambda).1 = k ∧
        (find_best_split train g h reg_lambda).2 =
          find_threshold g h ((transposeT train).getD k []) reg_lambda ∧
        (∀ j, j < (transposeT train).length →
          (find_threshold g h ((transposeT train).getD j []) reg_lambda).2 =
            (find_best_split train g h reg_lambda).2.2 → k ≤ j)) ∧
    ((∀ j, j < (transposeT train).length →
        (find_threshold g h ((transposeT train).getD j []) reg_lambda).2 ≤ 0) →
      find_best_split train g h reg_lambda = (0, none, 0)) := by
  obtain ⟨h1, h2, h3⟩ := fbs_scan_spec g h reg_lambda (transposeT train) 0 (0, none, 0)
  rw [find_best_split_eq]
  refine ⟨h2, ?_, ?_⟩
  · intro hne
    rcases h3 with h3 | ⟨k, hk, hr1, hr2, hlt, hprev⟩
    · rw [h3] at hne
      simp at hne
    · refine ⟨k, hk, by simpa using hr1, hr2, ?_⟩
      intro j hj hgj
      by_contra hc
      push_neg at hc
      exact absurd hgj (ne_of_lt (hprev j hc))
  · intro hall
    rcases h3 with h3 | ⟨k, hk, hr1, hr2, hlt, hprev⟩
    · exact h3
    · exfalso
      have hlt' : 0 < (fbs_scan g h reg_lambda (transposeT train) 0 (0, none, 0)).2.2 := hlt
      have hle : (fbs_scan g h reg_lambda (transposeT train) 0 (0, none, 0)).2.2 ≤ 0 := by
        rw [hr2]
        exact hall k hk
      linarith

/-- C8: `find_best_split` runs `find_threshold` on every feature column of the
transposed sample matrix; the returned gain dominates every column's best gain;
when the returned gain is nonzero the returned triple is the
`(feature, threshold, gain)` of the gain-maximizing column, with ties between
equal best gains resolved in favour of the lowest feature index; and when every
column's best gain is non-positive it returns `(0, none, 0)`. -/
theorem find_best_split_spec (train : List (List ℚ)) (g h : List ℚ) (reg_lambda : ℚ) :
    (∀ j, j < (transposeT train).length →
      (find_threshold g h ((transposeT train).getD j []) reg_lambda).2 ≤
        (find_best_split train g h reg_lambda).2.2) ∧
    ((find_best_split train g h reg_lambda).2.2 ≠ 0 →
      ∃ k, k < (transposeT train).length ∧
        (find_best_split train g h reg_lambda).1 = k ∧
        (find_best_split train g h reg_lambda).2 =
          find_threshold g h ((transposeT train).getD k []) reg_lambda ∧
        (∀ j, j < (transposeT train).length →
          (find_threshold g h ((transposeT train).getD j []) reg_lambda).2 =
            (find_best_split train g h reg_lambda).2.2 → k ≤ j)) ∧
    ((∀ j, j < (transposeT train).length →
        (find_threshold g h ((transposeT train).getD j []) reg_lambda).2 ≤ 0) →
      find_best_split train g h reg_lambda = (0, none, 0)) :=
  find_best_split_char train g h reg_lambda

/-- Witness for C8 at `train = [[0,5],[2,5]]`, `g = [2,-2]`, `h = [1,1]`,
`reg_lambda = 1`: the best gain of column `0` is dominated by the returned gain. -/
theorem find_best_split_spec_witness :
    (find_threshold [2, -2] [1, 1] ((transposeT [[0, 5], [2, 5]]).getD 0 []) 1).2 ≤
      (find_best_split [[0, 5], [2, 5]] [2, -2] [1, 1] 1).2.2 :=
  (find_best_split_spec [[0, 5], [2, 5]] [2, -2] [1, 1] 1).1 0
    (by norm_num [transposeT, numCols])

lemma find_best_split_none_iff (tr : List (List ℚ)) (g h : List ℚ) (reg_lambda : ℚ) :
    (find_best_split tr g h reg_lambda).2.1 = none ↔
      (find_best_split tr g h reg_lambda).2.2 = 0 := by
  obtain ⟨h1, h2, h3⟩ := fbs_scan_spec g h reg_lambda (transposeT tr) 0 (0, none, 0)
  rw [find_best_split_eq]
  rcases h3 with h3 | ⟨k, hk, hr1, hr2, hlt, hprev⟩
  · rw [h3]
    simp
  · have hlt' : 0 < (fbs_scan g h reg_lambda (transposeT tr) 0 (0, none, 0)).2.2 := hlt
    constructor
    · intro hn
      have hft1 : (find_threshold g h ((transposeT tr).getD k []) reg_lambda).1 = none := by
        rw [← hr2] at *
        exact hn
      have := (find_threshold_none_iff g h ((transposeT tr).getD k []) reg_lambda).mp hft1
      rw [hr2]
      exact this
    · intro hz
      exfalso
      rw [hz] at hlt'
      exact absurd hlt' (lt_irrefl 0)

/-- A non-`None` best-split threshold comes with a strictly positive gain
(shared helper). -/
lemma find_best_split_some_pos (tr : List (List ℚ)) (g h : List ℚ) (reg_lambda : ℚ)
    (t : ℚ) (ht : (find_best_split tr g h reg_lambda).2.1 = some t) :
    0 < (find_best_split tr g h reg_lambda).2.2 := by
  have hne : (find_best_split tr g h reg_lambda).2.2 ≠ 0 := by
    intro hz
    have := (find_best_split_none_iff tr g h reg_lambda).mpr hz
    rw [ht] at this
    exact Option.noConfusion this
  exact lt_of_le_of_ne (find_best_split_gain_nonneg tr g h reg_lambda) (Ne.symm hne)

/-- C9: for both `find_threshold` and `find_best_split` the returned threshold
is `None` if and only if the returned best gain is `0`; in particular a
non-`None` threshold comes with a strictly positive gain. -/
theorem threshold_none_iff_zero_gain (g h train : List ℚ) (tr : List (List ℚ))
    (reg_lambda : ℚ) :
    ((find_threshold g h train reg_lambda).1 = none ↔
      (find_threshold g h train reg_lambda).2 = 0) ∧
    ((find_best_split tr g h reg_lambda).2.1 = none ↔
      (find_best_split tr g h reg_lambda).2.2 = 0) ∧
    (∀ t, (find_threshold g h train reg_lambda).1 = some t →
      0 < (find_threshold g h train reg_lambda).2) ∧
    (∀ t, (find_best_split tr g h reg_lambda).2.1 = some t →
      0 < (find_best_split tr g h reg_lambda).2.2) := by
  refine ⟨find_threshold_none_iff g h train reg_lambda,
    find_best_split_none_iff tr g h reg_lambda, ?_, fun t ht =>
      find_best_split_some_pos tr g h reg_lambda t ht⟩
  · intro t ht
    have hne : (find_threshold g h train reg_lambda).2 ≠ 0 := by
      intro hz
      have := (find_threshold_none_iff g h train reg_lambda).mpr hz
      rw [ht] at this
      exact Option.noConfusion this
    exact lt_of_le_of_ne (find_threshold_gain_nonneg g h train reg_lambda) (Ne.symm hne)

/-- Witness for C9 at `train = [[0],[2]]`, `g = [2,-2]`, `h = [1,1]`,
`reg_lambda = 1`: the best split returns a non-`None` threshold, so its gain is
strictly positive. -/
theorem threshold_none_iff_zero_gain_witness :
    0 < (find_best_split [[0], [2]] [2, -2] [1, 1] 1).2.2 :=
  (threshold_none_iff_zero_gain [2, -2] [1, 1] [0, 2] [[0], [2]] 1).2.2.2 1
    (by norm_num [find_best_split, fbs_scan, transposeT, numCols, find_threshold,
      ft_scan, npUnique, insertUniq, calculate_gain, leaf_loss, sumIf, sumElse])

lemma transposeT_getD (train : List (List ℚ)) (j : ℕ)
    (hj : j < (transposeT train).length) :
    (transposeT train).getD j [] = train.map (fun row => row.getD j 0) := by
  simp only [transposeT, List.length_map, List.length_range] at hj
  rw [List.getD_eq_getElem _ _ (by simpa [transposeT] using hj)]
  simp [transposeT]

/-- The `TreeNode` data structure: a tagged variant that is either a leaf
holding a score, or an internal node holding a split feature, a split
threshold and two children. -/
inductive TreeNode where
  | leaf (score : ℚ)
  | node (split_feature : ℕ) (split_threshold : ℚ) (left_child right_child : TreeNode)
deriving DecidableEq

/-- numpy boolean-mask selection `xs[index]`. -/
def maskSel {α : Type} : List Bool → List α → List α
  | true :: ms, x :: rest => x :: maskSel ms rest
  | false :: ms, _ :: rest => maskSel ms rest
  | _, _ => []

/-- numpy complemented boolean-mask selection `xs[~index]`. -/
def maskSelNot {α : Type} : List Bool → List α → List α
  | true :: ms, _ :: rest => maskSelNot ms rest
  | false :: ms, x :: rest => x :: maskSelNot ms rest
  | _, _ => []

lemma maskSel_map_self {α : Type} (p : α → Bool) :
    ∀ (xs : List α), maskSel (xs.map p) xs = xs.filter p
  | [] => rfl
  | x :: xs => by
    cases hp : p x <;>
      simp [maskSel, hp, maskSel_map_self p xs, List.filter_cons]

lemma maskSelNot_map_self {α : Type} (p : α → Bool) :
    ∀ (xs : List α), maskSelNot (xs.map p) xs = xs.filter (fun x => !(p x))
  | [] => rfl
  | x :: xs => by
    cases hp : p x <;>
      simp [maskSelNot, hp, maskSelNot_map_self p xs, List.filter_cons]

/-- `Tree.construct_tree(train, g, h, max_depth)` from the source: return a leaf
with score `leaf_score(g,h,reg_lambda)` when the depth budget is exhausted, the
node has fewer than `min_sample_split` samples, or the best gain is `≤ gamma`
(the split search is not run in the first two cases); otherwise partition the
samples by `train[:,feature] < threshold` and recurse with one less level of
depth.  The branch where `find_best_split` returns `threshold = None` while
`gain > gamma` (reachable only with `gamma < 0`) raises a `TypeError` in the
source when comparing floats with `None`; it is modelled by `none`. -/
def construct_tree (min_sample_split : ℕ) (reg_lambda gamma : ℚ) :
    List (List ℚ) → List ℚ → List ℚ → ℕ → Option TreeNode
  | _, g, h, 0 => some (TreeNode.leaf (leaf_score g h reg_lambda))
  | train, g, h, d + 1 =>
    if train.length < min_sample_split then
      some (TreeNode.leaf (leaf_score g h reg_lambda))
    else
      let fbs := find_best_split train g h reg_lambda
      if fbs.2.2 ≤ gamma then
        some (TreeNode.leaf (leaf_score g h reg_lambda))
      else
        match fbs.2.1 with
        | none => none
        | some threshold =>
          let mask := train.map (fun row => decide (row.getD fbs.1 0 < threshold))
          (construct_tree min_sample_split reg_lambda gamma
              (maskSel mask train) (maskSel mask g) (maskSel mask h) d).bind fun lc =>
            (construct_tree min_sample_split reg_lambda gamma
                (maskSelNot mask train) (maskSelNot mask g) (maskSelNot mask h) d).map
              fun rc => TreeNode.node fbs.1 threshold lc rc

/-- `Tree.fit(train, g, h)`: construct the tree with the configured `max_depth`
budget. -/
def tree_fit (max_depth min_sample_split : ℕ) (reg_lambda gamma : ℚ)
    (train : List (List ℚ)) (g h : List ℚ) : Option TreeNode :=
  construct_tree min_sample_split reg_lambda gamma train g h max_depth

/-- Number of edges of the longest root-to-leaf path of a tree. -/
def TreeNode.depth : TreeNode → ℕ
  | .leaf _ => 0
  | .node _ _ l r => 1 + max l.depth r.depth

lemma construct_tree_depth_le (mss : ℕ) (lam gamma : ℚ) :
    ∀ (d : ℕ) (train : List (List ℚ)) (g h : List ℚ) (t : TreeNode),
      construct_tree mss lam gamma train g h d = some t → t.depth ≤ d := by
  intro d
  induction d with
  | zero =>
    intro train g h t ht
    simp only [construct_tree, Option.some.injEq] at ht
    rw [← ht]
    exact le_refl 0
  | succ d ih =>
    intro train g h t ht
    simp only [construct_tree] at ht
    split_ifs at ht with h1 h2
    · simp only [Option.some.injEq] at ht
      rw [← ht]
      exact Nat.zero_le (d + 1)
    · simp only [Option.some.injEq] at ht
      rw [← ht]
      exact Nat.zero_le (d + 1)
    · cases hthr : (find_best_split train g h lam).2.1 with
      | none =>
        rw [hthr] at ht
        exact Option.noConfusion ht
      | some thr =>
        rw [hthr] at ht
        rw [Option.bind_eq_some] at ht
        obtain ⟨lc, hlc, ht⟩ := ht
        rw [Option.map_eq_some'] at ht
        obtain ⟨rc, hrc, ht⟩ := ht
        rw [← ht]
        have hL := ih _ _ _ _ hlc
        have hR := ih _ _ _ _ hrc
        simp only [TreeNode.depth]
        omega

/-- C5: for every tree built by `Tree.fit` with configuration `max_depth = D`,
every leaf lies at most `D` edges from the root: no root-to-leaf path is longer
than `D`. -/
theorem tree_fit_depth_le (max_depth min_sample_split : ℕ) (reg_lambda gamma : ℚ)
    (train : List (List ℚ)) (g h : List ℚ) (t : TreeNode)
    (hfit : tree_fit max_depth min_sample_split reg_lambda gamma train g h = some t) :
    TreeNode.depth t ≤ max_depth :=
  construct_tree_depth_le min_sample_split reg_lambda gamma max_depth train g h t hfit

/-- Witness for C5 at `max_depth = 0` on a one-sample input. -/
theorem tree_fit_depth_le_witness :
    TreeNode.depth (TreeNode.leaf (leaf_score [1] [1] 1)) ≤ 0 :=
  tree_fit_depth_le 0 10 1 0 [[5]] [1] [1] (TreeNode.leaf (leaf_score [1] [1] 1)) rfl

/-- With `gamma ≥ 0` the `None`-threshold failure branch of `construct_tree` is
unreachable (a `None` threshold forces `best_gain = 0 ≤ gamma`), so the
construction always produces a tree (shared helper). -/
lemma construct_tree_isSome (mss : ℕ) (lam gamma : ℚ) (hgam : 0 ≤ gamma) :
    ∀ (d : ℕ) (train : List (List ℚ)) (g h : List ℚ),
      (construct_tree mss lam gamma train g h d).isSome := by
  intro d
  induction d with
  | zero =>
    intro train g h
    rfl
  | succ d ih =>
    intro train g h
    simp only [construct_tree]
    split_ifs with h1 h2
    · rfl
    · rfl
    · cases hthr : (find_best_split train g h lam).2.1 with
      | none =>
        exfalso
        have hz := (find_best_split_none_iff train g h lam).mp hthr
        rw [hz] at h2
        exact h2 hgam
      | some thr =>
        simp only [hthr]
        obtain ⟨lc, hlc⟩ := Option.isSome_iff_exists.mp (ih
          (maskSel (train.map fun row =>
            decide (row.getD (find_best_split train g h lam).1 0 < thr)) train)
          (maskSel (train.map fun row =>
            decide (row.getD (find_best_split train g h lam).1 0 < thr)) g)
          (maskSel (train.map fun row =>
            decide (row.getD (find_best_split train g h lam).1 0 < thr)) h))
        obtain ⟨rc, hrc⟩ := Option.isSome_iff_exists.mp (ih
          (maskSelNot (train.map fun row =>
            decide (row.getD (find_best_split train g h lam).1 0 < thr)) train)
          (maskSelNot (train.map fun row =>
            decide (row.getD (find_best_split train g h lam).1 0 < thr)) g)
          (maskSelNot (train.map fun row =>
            decide (row.getD (find_best_split train g h lam).1 0 < thr)) h))
        rw [hlc, hrc]
        rfl

/-- C4: `construct_tree(samples, g, h, remaining_depth)` returns a leaf with
score `leaf_score(g,h,reg_lambda)` exactly when `remaining_depth = 0`, or the
sample count is below `min_sample_split`, or the best gain found by
`find_best_split` is `≤ gamma` (conditions checked in that order — the split
search is not run in the first two cases); otherwise (with `gamma ≥ 0` as the
configuration requires) it returns an internal node, split on the feature
chosen by `find_best_split`. -/
theorem construct_tree_leaf_iff (min_sample_split : ℕ) (reg_lambda gamma : ℚ)
    (train : List (List ℚ)) (g h : List ℚ) (d : ℕ) :
    (construct_tree min_sample_split reg_lambda gamma train g h d =
        some (TreeNode.leaf (leaf_score g h reg_lambda)) ↔
      (d = 0 ∨ train.length < min_sample_split ∨
        (find_best_split train g h reg_lambda).2.2 ≤ gamma)) ∧
    (0 ≤ gamma →
      ¬ (d = 0 ∨ train.length < min_sample_split ∨
          (find_best_split train g h reg_lambda).2.2 ≤ gamma) →
      ∃ thr l r, construct_tree min_sample_split reg_lambda gamma train g h d =
        some (TreeNode.node (find_best_split train g h reg_lambda).1 thr l r)) := by
  constructor
  · cases d with
    | zero => simp [construct_tree]
    | succ d =>
      constructor
      · intro ht
        simp only [construct_tree] at ht
        split_ifs at ht with h1 h2
        · exact Or.inr (Or.inl h1)
        · exact Or.inr (Or.inr h2)
        · exfalso
          cases hthr : (find_best_split train g h reg_lambda).2.1 with
          | none =>
            rw [hthr] at ht
            exact Option.noConfusion ht
          | some thr =>
            rw [hthr] at ht
            rw [Option.bind_eq_some] at ht
            obtain ⟨lc, hlc, ht⟩ := ht
            rw [Option.map_eq_some'] at ht
            obtain ⟨rc, hrc, ht⟩ := ht
            exact TreeNode.noConfusion ht
      · intro hcond
        simp only [construct_tree]
        rcases hcond with h0 | hlt | hgain
        · exact absurd h0 (Nat.succ_ne_zero d)
        · rw [if_pos hlt]
        · by_cases h1 : train.length < min_sample_split
          · rw [if_pos h1]
          · rw [if_neg h1, if_pos hgain]
  · intro hgam hnot
    push_neg at hnot
    obtain ⟨hd0, hmss, hgain⟩ := hnot
    cases d with
    | zero => exact absurd rfl hd0
    | succ d =>
      simp only [construct_tree]
      rw [if_neg (not_lt.mpr hmss), if_neg (not_le.mpr hgain)]
      cases hthr : (find_best_split train g h reg_lambda).2.1 with
      | none =>
        exfalso
        have hz := (find_best_split_none_iff train g h reg_lambda).mp hthr
        rw [hz] at hgain
        exact absurd hgain (not_lt.mpr hgam)
      | some thr =>
        simp only [hthr]
        obtain ⟨lc, hlc⟩ := Option.isSome_iff_exists.mp
          (construct_tree_isSome min_sample_split reg_lambda gamma hgam d
            (maskSel (train.map fun row =>
              decide (row.getD (find_best_split train g h reg_lambda).1 0 < thr)) train)
            (maskSel (train.map fun row =>
              decide (row.getD (find_best_split train g h reg_lambda).1 0 < thr)) g)
            (maskSel (train.map fun row =>
              decide (row.getD (find_best_split train g h reg_lambda).1 0 < thr)) h))
        obtain ⟨rc, hrc⟩ := Option.isSome_iff_exists.mp
          (construct_tree_isSome min_sample_split reg_lambda gamma hgam d
            (maskSelNot (train.map fun row =>
              decide (row.getD (find_best_split train g h reg_lambda).1 0 < thr)) train)
            (maskSelNot (train.map fun row =>
              decide (row.getD (find_best_split train g h reg_lambda).1 0 < thr)) g)
            (maskSelNot (train.map fun row =>
              decide (row.getD (find_best_split train g h reg_lambda).1 0 < thr)) h))
        rw [hlc, hrc]
        exact ⟨thr, lc, rc, rfl⟩

/-- Witness for C4: the depth-0 stopping condition at a concrete input. -/
theorem construct_tree_leaf_iff_witness :
    construct_tree 10 1 0 [[5]] [1] [1] 0 =
      some (TreeNode.leaf (leaf_score [1] [1] 1)) :=
  (construct_tree_leaf_iff 10 1 0 [[5]] [1] [1] 0).1.mpr (Or.inl rfl)

/-- C6: every internal node built by `construct_tree` partitions its samples
non-degenerately: the stored threshold is strictly between two observed values
of the split feature column, so at least one sample falls strictly below it and
at least one falls at or above it, and both recursive calls receive a non-empty
subset. -/
theorem construct_tree_split_nonempty (min_sample_split : ℕ) (reg_lambda gamma : ℚ)
    (train : List (List ℚ)) (g h : List ℚ) (d : ℕ) (f : ℕ) (thr : ℚ)
    (l r : TreeNode)
    (hc : construct_tree min_sample_split reg_lambda gamma train g h d =
      some (TreeNode.node f thr l r)) :
    (∃ row ∈ train, row.getD f 0 < thr) ∧
    (∃ row ∈ train, ¬ row.getD f 0 < thr) ∧
    maskSel (train.map (fun row => decide (row.getD f 0 < thr))) train ≠ [] ∧
    maskSelNot (train.map (fun row => decide (row.getD f 0 < thr))) train ≠ [] := by
  cases d with
  | zero =>
    simp only [construct_tree, Option.some.injEq] at hc
    exact TreeNode.noConfusion hc
  | succ d =>
    simp only [construct_tree] at hc
    split_ifs at hc with h1 h2
    · simp only [Option.some.injEq] at hc
      exact TreeNode.noConfusion hc
    · simp only [Option.some.injEq] at hc
      exact TreeNode.noConfusion hc
    · cases hthr : (find_best_split train g h reg_lambda).2.1 with
      | none =>
        rw [hthr] at hc
        exact Option.noConfusion hc
      | some thr' =>
        rw [hthr] at hc
        rw [Option.bind_eq_some] at hc
        obtain ⟨lc, hlc, hc⟩ := hc
        rw [Option.map_eq_some'] at hc
        obtain ⟨rc, hrc, hc⟩ := hc
        injection hc with hf hthr2 hlc2 hrc2
        rw [hthr2] at hthr
        have hpos : 0 < (find_best_split train g h reg_lambda).2.2 :=
          find_best_split_some_pos train g h reg_lambda thr hthr
        obtain ⟨k, hk, hk1, hk2, hkties⟩ :=
          (find_best_split_char train g h reg_lambda).2.1 (ne_of_gt hpos)
        rw [hf] at hk1
        subst hk1
        have hft1 : (find_threshold g h ((transposeT train).getD f []) reg_lambda).1 =
            some thr := by
          rw [← hk2]
          exact hthr
        obtain ⟨⟨p, hp, hmid⟩, -, -, -⟩ :=
          (find_threshold_char g h ((transposeT train).getD f []) reg_lambda).2.2.2 thr hft1
        have hsorted := sorted_npUnique ((transposeT train).getD f [])
        obtain ⟨hp1, hp2, hplt⟩ := zip_tail_mem _ hsorted p hp
        have hmem1 : p.1 ∈ (transposeT train).getD f [] := (mem_npUnique p.1 _).mp hp1
        have hmem2 : p.2 ∈ (transposeT train).getD f [] := (mem_npUnique p.2 _).mp hp2
        rw [transposeT_getD train f hk] at hmem1 hmem2
        obtain ⟨row1, hrow1, hrow1e⟩ := List.mem_map.mp hmem1
        obtain ⟨row2, hrow2, hrow2e⟩ := List.mem_map.mp hmem2
        have hlt1 : row1.getD f 0 < thr := by
          rw [hrow1e, hmid]
          linarith
        have hge2 : ¬ row2.getD f 0 < thr := by
          rw [hrow2e, hmid]
          push_neg
          linarith
        refine ⟨⟨row1, hrow1, hlt1⟩, ⟨row2, hrow2, hge2⟩, ?_, ?_⟩
        · rw [maskSel_map_self]
          intro hnil
          rw [List.filter_eq_nil_iff] at hnil
          exact hnil row1 hrow1 (by simpa using hlt1)
        · rw [maskSelNot_map_self]
          intro hnil
          rw [List.filter_eq_nil_iff] at hnil
          exact hnil row2 hrow2 (by simpa using hge2)

/-- Witness for C6: at `min_sample_split = 1`, `reg_lambda = 1`, `gamma = 0`,
`train = [[0],[2]]`, `g = [2,-2]`, `h = [1,1]`, depth budget `1`, the built tree
splits feature `0` at threshold `1` and the left partition is non-empty. -/
theorem construct_tree_split_nonempty_witness :
    maskSel ([[(0:ℚ)], [2]].map (fun row => decide (row.getD 0 0 < 1))) [[(0:ℚ)], [2]] ≠ [] :=
  (construct_tree_split_nonempty 1 1 0 [[0], [2]] [2, -2] [1, 1] 1 0 1
    (TreeNode.leaf (-1)) (TreeNode.leaf 1) (by
      have hfbs : find_best_split [[0], [2]] [2, -2] [1, 1] 1 = (0, some 1, 2) := by
        norm_num [find_best_split, fbs_scan, transposeT, numCols, find_threshold, ft_scan,
          npUnique, insertUniq, calculate_gain, leaf_loss, sumIf, sumElse]
      have hd1 : decide ((0:ℚ) < 1) = true := by norm_num
      have hd2 : decide ((2:ℚ) < 1) = false := by norm_num
      simp only [construct_tree, hfbs]
      norm_num [maskSel, maskSelNot, leaf_score, hd1, hd2])).2.2.1


/-- `Tree.predict_single(treenode, test)` from the source: traverse from the
root, going left when `test[split_feature] < split_threshold`, else right;
return the leaf's score. -/
def predict_single : TreeNode → List ℚ → ℚ
  | .leaf s, _ => s
  | .node f thr lc rc, x =>
    if x.getD f 0 < thr then predict_single lc x else predict_single rc x

/-- `Tree.predict(test)`: one prediction per input row, in input order. -/
def tree_predict (t : TreeNode) (test : List (List ℚ)) : List ℚ :=
  test.map (predict_single t)

/-- The loss capability set: `link`, `g` (gradient) and `h` (hessian) over
vectors, as in the abstract `loss` base class. -/
structure LossFn where
  link : List ℚ → List ℚ
  g : List ℚ → List ℚ → List ℚ
  h : List ℚ → List ℚ → List ℚ

/-- The built-in `mse` loss class: identity link, `g(true,score) = score - true`,
`h(true,score) = np.ones_like(score)`. -/
def mseLoss : LossFn where
  link := fun score => score
  g := fun tv score => List.zipWith (fun s t => s - t) score tv
  h := fun _ score => score.map (fun _ => 1)

/-- The `loss` constructor parameter of `GBDT`: either a string or a custom
loss implementation. -/
inductive LossParam where
  | str (s : String)
  | fn (f : LossFn)

/-- The loss-resolution step at the top of `GBDT.fit`: the source converts only
the string `'mse'` into a loss object (`if self.loss=='mse': self.loss=mse()`).
Any other string — including `'log'` — is left as a string, and the subsequent
`self.loss.g(...)` call raises `AttributeError` (modelled by `none`). -/
def resolve_loss : LossParam → Option LossFn
  | .str s => if s = "mse" then some mseLoss else none
  | .fn f => some f

/-- The constructor configuration of `GBDT` (loss handled separately). -/
structure GBDTCfg where
  max_depth : ℕ
  min_sample_split : ℕ
  reg_lambda : ℚ
  gamma : ℚ
  learning_rate : ℚ
  n_estimators : ℕ

/-- The boosting loop of `GBDT.fit`: in each round fit a fresh tree on the
gradient/hessian of the current running score, append it, and add
`learning_rate * tree.predict(train)` to the running score. -/
def fit_rounds (cfg : GBDTCfg) (L : LossFn) (train : List (List ℚ)) (target : List ℚ) :
    ℕ → List TreeNode → List ℚ → Option (List TreeNode × List ℚ)
  | 0, trees, score => some (trees, score)
  | k + 1, trees, score =>
    (construct_tree cfg.min_sample_split cfg.reg_lambda cfg.gamma train
        (L.g target score) (L.h target score) cfg.max_depth).bind fun t =>
      fit_rounds cfg L train target k (trees ++ [t])
        (List.zipWith (· + ·) score
          ((tree_predict t train).map (fun p => cfg.learning_rate * p)))

/-- `GBDT.fit(train, target)`: `score_start = target.mean()`, initial running
score vector `score_start` for every sample, then `n_estimators` boosting
rounds.  Returns `(score_start, estimators)`. -/
def gbdt_fit (cfg : GBDTCfg) (L : LossFn) (train : List (List ℚ)) (target : List ℚ) :
    Option (ℚ × List TreeNode) :=
  let score_start := target.sum / (target.length : ℚ)
  (fit_rounds cfg L train target cfg.n_estimators []
      (List.replicate train.length score_start)).map fun p => (score_start, p.1)

/-- `GBDT.fit` invoked with the constructor-level loss parameter. -/
def gbdt_fit_param (cfg : GBDTCfg) (lp : LossParam) (train : List (List ℚ))
    (target : List ℚ) : Option (ℚ × List TreeNode) :=
  (resolve_loss lp).bind fun L => gbdt_fit cfg L train target

/-- The accumulated score vector: start from `base` and add
`learning_rate * tree.predict(X)` for each fitted tree in order. -/
def accScore (lr : ℚ) (base : List ℚ) (trees : List TreeNode)
    (X : List (List ℚ)) : List ℚ :=
  trees.foldl
    (fun sc t => List.zipWith (· + ·) sc ((tree_predict t X).map (fun p => lr * p)))
    base

/-- `GBDT.predict(test)`: replay the accumulation from `score_start` and apply
`loss.link` at the end. -/
def gbdt_predict (L : LossFn) (lr score_start : ℚ) (trees : List TreeNode)
    (test : List (List ℚ)) : List ℚ :=
  L.link (accScore lr (List.replicate test.length score_start) trees test)

/-- C2 (code evaluation): constructing a `GBDT` with `loss="log"` and calling
`fit` fails for every input — `fit` converts only the string `"mse"` to a loss
object, so with `"log"` the attribute lookups `self.loss.g`/`self.loss.h`
raise `AttributeError` — while the string `"mse"` does resolve to the built-in
squared-error loss.  This contradicts the documented configuration
`loss ∈ {"mse","log"}`. -/
theorem gbdt_fit_log_fails (cfg : GBDTCfg) (train : List (List ℚ)) (target : List ℚ) :
    gbdt_fit_param cfg (LossParam.str "log") train target = none ∧
    resolve_loss (LossParam.str "mse") = some mseLoss := by
  constructor
  · simp [gbdt_fit_param, resolve_loss]
  · simp [resolve_loss]

lemma getD_map_of_lt {α β : Type} (fn : α → β) (d : α) (d' : β) :
    ∀ (l : List α) (i : ℕ), i < l.length → (l.map fn).getD i d' = fn (l.getD i d)
  | x :: xs, 0, _ => rfl
  | x :: xs, i + 1, hi => getD_map_of_lt fn d d' xs i (by simpa using hi)
  | [], i, hi => absurd hi (by simp)

lemma getD_zipWith_add :
    ∀ (a b : List ℚ) (i : ℕ), i < a.length → i < b.length →
      (List.zipWith (· + ·) a b).getD i 0 = a.getD i 0 + b.getD i 0
  | x :: xs, y :: ys, 0, _, _ => rfl
  | x :: xs, y :: ys, i + 1, ha, hb =>
    getD_zipWith_add xs ys i (by simpa using ha) (by simpa using hb)
  | [], _, i, ha, _ => absurd ha (by simp)
  | _ :: _, [], i, _, hb => absurd hb (by simp)

lemma tree_predict_length (t : TreeNode) (X : List (List ℚ)) :
    (tree_predict t X).length = X.length := by
  simp [tree_predict]

lemma accScore_nil (lr : ℚ) (base : List ℚ) (X : List (List ℚ)) :
    accScore lr base [] X = base := rfl

lemma accScore_append (lr : ℚ) (base : List ℚ) (xs ys : List TreeNode)
    (X : List (List ℚ)) :
    accScore lr base (xs ++ ys) X = accScore lr (accScore lr base xs X) ys X := by
  simp [accScore, List.foldl_append]

lemma accScore_length (lr : ℚ) (X : List (List ℚ)) :
    ∀ (trees : List TreeNode) (base : List ℚ), base.length = X.length →
      (accScore lr base trees X).length = X.length
  | [], base, hb => hb
  | t :: ts, base, hb => by
    have hb' : (List.zipWith (· + ·) base
        ((tree_predict t X).map (fun p => lr * p))).length = X.length := by
      simp [tree_predict, hb]
    exact accScore_length lr X ts _ hb'

lemma accScore_getD (lr : ℚ) (X : List (List ℚ)) (i : ℕ) (hi : i < X.length) :
    ∀ (trees : List TreeNode) (base : List ℚ), base.length = X.length →
      (accScore lr base trees X).getD i 0 =
        base.getD i 0 +
          (trees.map (fun t => lr * predict_single t (X.getD i []))).sum
  | [], base, hb => by simp [accScore_nil]
  | t :: ts, base, hb => by
    have hb' : (List.zipWith (· + ·) base
        ((tree_predict t X).map (fun p => lr * p))).length = X.length := by
      simp [tree_predict, hb]
    have ih := accScore_getD lr X i hi ts _ hb'
    have hz : (List.zipWith (· + ·) base
        ((tree_predict t X).map (fun p => lr * p))).getD i 0 =
        base.getD i 0 + lr * predict_single t (X.getD i []) := by
      rw [getD_zipWith_add _ _ i (by omega) (by simp [tree_predict]; omega)]
      rw [getD_map_of_lt (fun p => lr * p) 0 0 _ i (by simp [tree_predict]; omega)]
      rw [show tree_predict t X = X.map (predict_single t) from rfl]
      rw [getD_map_of_lt (predict_single t) [] 0 X i hi]
    show (accScore lr (List.zipWith (· + ·) base
        ((tree_predict t X).map (fun p => lr * p))) ts X).getD i 0 = _
    rw [ih, hz, List.map_cons, List.sum_cons]
    ring

/-- Characterization of the boosting loop (shared helper): when `fit_rounds`
runs `k` rounds starting from an accumulated state, the final tree list extends
the initial one by `k` trees, the final score is the accumulated score of the
final tree list, and each new tree is exactly the tree constructed from the
gradient/hessian of the score accumulated over the trees before it. -/
lemma fit_rounds_spec (cfg : GBDTCfg) (L : LossFn) (train : List (List ℚ))
    (target : List ℚ) (base : List ℚ) :
    ∀ (k : ℕ) (trees0 trees1 : List TreeNode) (score1 : List ℚ),
      fit_rounds cfg L train target k trees0
          (accScore cfg.learning_rate base trees0 train) =
        some (trees1, score1) →
      trees1.length = trees0.length + k ∧
      (∃ rest : List TreeNode, trees1 = trees0 ++ rest) ∧
      score1 = accScore cfg.learning_rate base trees1 train ∧
      ∀ i, trees0.length ≤ i → i < trees1.length →
        construct_tree cfg.min_sample_split cfg.reg_lambda cfg.gamma train
            (L.g target (accScore cfg.learning_rate base (trees1.take i) train))
            (L.h target (accScore cfg.learning_rate base (trees1.take i) train))
            cfg.max_depth =
          some (trees1.getD i (TreeNode.leaf 0)) := by
  intro k
  induction k with
  | zero =>
    intro trees0 trees1 score1 hf
    simp only [fit_rounds, Option.some.injEq, Prod.mk.injEq] at hf
    obtain ⟨h1, h2⟩ := hf
    subst h1
    refine ⟨by omega, ⟨[], by simp⟩, h2.symm, ?_⟩
    intro i h1i h2i
    omega
  | succ k ih =>
    intro trees0 trees1 score1 hf
    simp only [fit_rounds] at hf
    rw [Option.bind_eq_some] at hf
    obtain ⟨t, hct, hf⟩ := hf
    have hstep : accScore cfg.learning_rate base (trees0 ++ [t]) train =
        List.zipWith (· + ·) (accScore cfg.learning_rate base trees0 train)
          ((tree_predict t train).map (fun p => cfg.learning_rate * p)) := by
      rw [accScore_append]
      rfl
    rw [← hstep] at hf
    obtain ⟨hlen, ⟨rest, hrest⟩, hscore, hall⟩ := ih (trees0 ++ [t]) trees1 score1 hf
    refine ⟨by simp at hlen ⊢; omega,
      ⟨[t] ++ rest, by simpa [List.append_assoc] using hrest⟩, hscore, ?_⟩
    intro i h1i h2i
    by_cases hi : trees0.length = i
    · subst hi
      have htake : trees1.take trees0.length = trees0 := by
        rw [hrest, List.append_assoc]
        exact List.take_left trees0 ([t] ++ rest)
      have hgetD : trees1.getD trees0.length (TreeNode.leaf 0) = t := by
        rw [hrest, List.append_assoc]
        rw [List.getD_append_right _ _ _ _ (le_refl _)]
        simp
      rw [htake, hgetD]
      exact hct
    · have h1i' : (trees0 ++ [t]).length ≤ i := by
        simp
        omega
      exact hall i h1i' h2i

/-- C3: after `GBDT.fit(train, target)` returns `(score_start, trees)`:
`score_start` is the mean of the targets; there are exactly `n_estimators`
trees; tree `i` was fitted on the gradient/hessian of the running score
accumulated from trees `0..i-1` starting at `score_start`; and `predict(X)`
equals `loss.link` of the vector whose `i`-th entry is
`score_start + Σ over the fitted trees of learning_rate * tree.predict(X[i])` —
one value per row of `X`, in input order. -/
theorem gbdt_fit_predict_spec (cfg : GBDTCfg) (L : LossFn) (train : List (List ℚ))
    (target : List ℚ) (s0 : ℚ) (trees : List TreeNode)
    (hfit : gbdt_fit cfg L train target = some (s0, trees)) :
    s0 = target.sum / (target.length : ℚ) ∧
    trees.length = cfg.n_estimators ∧
    (∀ i, i < trees.length →
      construct_tree cfg.min_sample_split cfg.reg_lambda cfg.gamma train
          (L.g target (accScore cfg.learning_rate
            (List.replicate train.length s0) (trees.take i) train))
          (L.h target (accScore cfg.learning_rate
            (List.replicate train.length s0) (trees.take i) train))
          cfg.max_depth =
        some (trees.getD i (TreeNode.leaf 0))) ∧
    (∀ X, gbdt_predict L cfg.learning_rate s0 trees X =
      L.link (accScore cfg.learning_rate (List.replicate X.length s0) trees X)) ∧
    (∀ X, (accScore cfg.learning_rate (List.replicate X.length s0) trees X).length =
      X.length) ∧
    (∀ X i, i < X.length →
      (accScore cfg.learning_rate (List.replicate X.length s0) trees X).getD i 0 =
        s0 + (trees.map (fun t =>
          cfg.learning_rate * predict_single t (X.getD i []))).sum) := by
  simp only [gbdt_fit, Option.map_eq_some'] at hfit
  obtain ⟨⟨trees1, score1⟩, hrounds, hpair⟩ := hfit
  rw [Prod.mk.injEq] at hpair
  obtain ⟨hs0, htrees⟩ := hpair
  subst hs0
  subst htrees
  have hrounds' : fit_rounds cfg L train target cfg.n_estimators []
      (accScore cfg.learning_rate
        (List.replicate train.length (target.sum / (target.length : ℚ))) [] train) =
      some (trees1, score1) := hrounds
  obtain ⟨hlen, -, hscore, hall⟩ := fit_rounds_spec cfg L train target
    (List.replicate train.length (target.sum / (target.length : ℚ)))
    cfg.n_estimators [] trees1 score1 hrounds'
  refine ⟨rfl, by simpa using hlen, ?_, fun X => rfl, ?_, ?_⟩
  · intro i hi
    exact hall i (Nat.zero_le i) hi
  · intro X
    exact accScore_length _ X trees1 _ (by simp)
  · intro X i hiX
    rw [accScore_getD _ X i hiX trees1 _ (by simp)]
    congr 1
    rw [List.getD_eq_getElem _ _ (by simpa using hiX)]
    simp

/-- Witness for C3: a one-round fit with `max_depth = 0` on `train = [[0],[1]]`,
`target = [0,0]`, mse loss, learning rate `1`. -/
theorem gbdt_fit_predict_spec_witness :
    ([TreeNode.leaf 0] : List TreeNode).length = 1 :=
  (gbdt_fit_predict_spec ⟨0, 10, 1, 0, 1, 1⟩ mseLoss [[0], [1]] [0, 0] 0 [TreeNode.leaf 0]
    (by norm_num [gbdt_fit, fit_rounds, construct_tree, mseLoss, tree_predict,
      predict_single, leaf_score, List.replicate])).2.1

end GBDTSpec
